import Mathlib

/-!
Verification development for the flowchart generator component
(FlowchartApp.tsx): the model-output sanitizer, the conversation state,
the submission state machine, and the zoom control, embedded shallowly
over `List Char` / `String` and a record of the component state.
-/

namespace FlowchartApp

/-- The backtick character, written via its code point. -/
def btick : Char := Char.ofNat 96

/-- Three backticks: a fenced code-block marker. -/
def ticks3 : List Char := [btick, btick, btick]

/-- The opening fence tagged with the mermaid language name. -/
def fenceTag : List Char := ticks3 ++ ['m', 'e', 'r', 'm', 'a', 'i', 'd']

/-- The canonical header without its newline, as a character list. -/
def header12 : List Char := ['f', 'l', 'o', 'w', 'c', 'h', 'a', 'r', 't', ' ', 'T', 'D']

/-- The canonical header followed by a newline. -/
def headerNL : List Char := header12 ++ ['\n']

/-- The replacement text for the legacy keyword, with its trailing space. -/
def flowSp : List Char := ['f', 'l', 'o', 'w', 'c', 'h', 'a', 'r', 't', ' ']

/-- Whitespace as JavaScript's `trim` and `\s` recognize it. -/
def isJsWS (c : Char) : Bool :=
  c.toNat == 9 || c.toNat == 10 || c.toNat == 11 || c.toNat == 12 || c.toNat == 13 ||
  c.toNat == 32 || c.toNat == 160 || c.toNat == 5760 ||
  (decide (8192 ≤ c.toNat) && decide (c.toNat ≤ 8202)) ||
  c.toNat == 8232 || c.toNat == 8233 || c.toNat == 8239 || c.toNat == 8287 ||
  c.toNat == 12288 || c.toNat == 65279

/-- Strip leading JavaScript whitespace. -/
def trimL (l : List Char) : List Char := l.dropWhile isJsWS

/-- Strip trailing JavaScript whitespace. -/
def trimR (l : List Char) : List Char := (l.reverse.dropWhile isJsWS).reverse

/-- Strip surrounding JavaScript whitespace, as `String.prototype.trim`. -/
def trimBoth (l : List Char) : List Char := trimR (trimL l)

/-- Left-to-right scan removing every occurrence of the tagged opening fence
together with one optional newline right after it, as the global regex
replacement on line 117 of FlowchartApp.tsx. -/
def removeMermaidFence : List Char → List Char
  | a :: b :: c :: d :: e :: f :: g :: h :: i :: j :: rest =>
    if [a, b, c, d, e, f, g, h, i, j] = fenceTag then
      match rest with
      | k :: rest2 =>
        if k = '\n' then removeMermaidFence rest2 else removeMermaidFence (k :: rest2)
      | [] => []
    else a :: removeMermaidFence (b :: c :: d :: e :: f :: g :: h :: i :: j :: rest)
  | l => l

/-- Left-to-right scan removing every occurrence of three backticks, as the
global regex replacement on line 118 of FlowchartApp.tsx. -/
def removeTicks : List Char → List Char
  | a :: b :: c :: rest =>
    if a = btick ∧ b = btick ∧ c = btick then removeTicks rest
    else a :: removeTicks (b :: c :: rest)
  | l => l

/-- Case-insensitive match of a character against a lowercase ASCII letter. -/
def matchesCI (c lo : Char) : Bool := c == lo || c.toNat + 32 == lo.toNat

/-- Whether the text starts with the legacy keyword "graph " (any case). -/
def graphAt : List Char → Bool
  | c0 :: c1 :: c2 :: c3 :: c4 :: c5 :: _ =>
    matchesCI c0 'g' && matchesCI c1 'r' && matchesCI c2 'a' && matchesCI c3 'p' &&
      matchesCI c4 'h' && c5 == ' '
  | _ => false

/-- Replace a leading legacy "graph " keyword by "flowchart ", as the anchored
case-insensitive regex replacement on line 119 of FlowchartApp.tsx. -/
def replaceGraph (l : List Char) : List Char :=
  if graphAt l then flowSp ++ l.drop 6 else l

/-- The `startsWith` test on character lists. -/
def startsWithL : List Char → List Char → Bool
  | [], _ => true
  | _ :: _, [] => false
  | p :: ps, c :: cs => p == c && startsWithL ps cs

/-- Drop a leading "flowchart TD" together with any whitespace after it, as
the anchored regex replacement on line 124 of FlowchartApp.tsx. -/
def stripHeaderWS (l : List Char) : List Char :=
  if startsWithL header12 l then (l.drop 12).dropWhile isJsWS else l

/-- Ensure the text begins with the canonical header plus newline, as the
branch on lines 123-126 of FlowchartApp.tsx. -/
def ensureHeader (l : List Char) : List Char :=
  if startsWithL headerNL l then l else headerNL ++ stripHeaderWS l

/-- Insert a newline when a non-newline character directly follows the
header, as the regex replacement on line 129 of FlowchartApp.tsx. -/
def newlineGuard (l : List Char) : List Char :=
  if startsWithL header12 l then
    match l.drop 12 with
    | c :: rest => if c = '\n' then l else header12 ++ '\n' :: c :: rest
    | [] => l
  else l

/-- The full sanitation pipeline of lines 113-129 of FlowchartApp.tsx,
on character lists: trim, strip fences, normalize the legacy keyword,
trim, force the canonical header, and guard the newline after it. -/
def sanitizeL (l : List Char) : List Char :=
  newlineGuard (ensureHeader (trimBoth (replaceGraph (removeTicks
    (removeMermaidFence (trimBoth l))))))

/-- The sanitizer on strings. -/
def sanitize (s : String) : String := (sanitizeL s.toList).asString

/-- Detector for an occurrence of three consecutive backticks. -/
def containsTicks : List Char → Bool
  | a :: b :: c :: rest =>
    if a = btick ∧ b = btick ∧ c = btick then true else containsTicks (b :: c :: rest)
  | _ => false

theorem sanitize_toList (s : String) : (sanitize s).toList = sanitizeL s.toList := rfl

theorem startsWithL_iff (p : List Char) :
    ∀ l, startsWithL p l = true ↔ ∃ t, l = p ++ t := by
  induction p with
  | nil => intro l; simp [startsWithL]
  | cons c p ih =>
    intro l
    cases l with
    | nil => simp [startsWithL]
    | cons x xs =>
      simp only [startsWithL, Bool.and_eq_true, beq_iff_eq, ih, List.cons_append,
        List.cons.injEq]
      constructor
      · rintro ⟨rfl, t, rfl⟩; exact ⟨t, rfl, rfl⟩
      · rintro ⟨t, rfl, rfl⟩; exact ⟨rfl, t, rfl⟩

theorem startsWithL_self_append (p t : List Char) : startsWithL p (p ++ t) = true :=
  (startsWithL_iff p _).mpr ⟨t, rfl⟩

theorem drop12_header (t : List Char) : (header12 ++ t).drop 12 = t := rfl

theorem headerNL_append (t : List Char) :
    headerNL ++ t = header12 ++ '\n' :: t := by
  simp [headerNL, List.append_assoc]

theorem newlineGuard_headerNL (t : List Char) :
    newlineGuard (headerNL ++ t) = headerNL ++ t := by
  rw [headerNL_append]
  have h1 : startsWithL header12 (header12 ++ '\n' :: t) = true :=
    startsWithL_self_append _ _
  have h2 : (header12 ++ '\n' :: t).drop 12 = '\n' :: t := drop12_header _
  simp [newlineGuard, h1, h2]

theorem ensureHeader_starts (l : List Char) :
    ∃ t, ensureHeader l = headerNL ++ t := by
  unfold ensureHeader
  by_cases h : startsWithL headerNL l = true
  · rw [if_pos h]
    exact (startsWithL_iff headerNL l).mp h
  · rw [if_neg h]
    exact ⟨stripHeaderWS l, rfl⟩

theorem sanitizeL_starts (l : List Char) : ∃ t, sanitizeL l = headerNL ++ t := by
  unfold sanitizeL
  obtain ⟨t, ht⟩ := ensureHeader_starts
    (trimBoth (replaceGraph (removeTicks (removeMermaidFence (trimBoth l)))))
  rw [ht, newlineGuard_headerNL]
  exact ⟨t, rfl⟩

/-- C1: for every input string, the sanitizer's output starts with the exact
canonical header followed by a newline, "flowchart TD\n". -/
theorem sanitizer_output_starts_with_header (s : String) :
    startsWithL headerNL (sanitize s).toList = true := by
  rw [sanitize_toList]
  obtain ⟨t, ht⟩ := sanitizeL_starts s.toList
  rw [ht]
  exact startsWithL_self_append _ _

theorem containsTicks_cons₃ (a b c : Char) (r : List Char) :
    containsTicks (a :: b :: c :: r) =
      if a = btick ∧ b = btick ∧ c = btick then true else containsTicks (b :: c :: r) := rfl

theorem containsTicks_nil : containsTicks [] = false := rfl

theorem containsTicks_one (a : Char) : containsTicks [a] = false := rfl

theorem containsTicks_two (a b : Char) : containsTicks [a, b] = false := rfl

theorem containsTicks_cons_ne (x : Char) (l : List Char) (hx : x ≠ btick) :
    containsTicks (x :: l) = containsTicks l := by
  match l with
  | [] => rfl
  | [y] => rfl
  | y :: z :: r =>
    rw [containsTicks_cons₃, if_neg]
    rintro ⟨h1, -, -⟩
    exact hx h1

theorem containsTicks_cons₂_ne (x y : Char) (l : List Char) (hy : y ≠ btick) :
    containsTicks (x :: y :: l) = containsTicks l := by
  match l with
  | [] => rfl
  | z :: r =>
    rw [containsTicks_cons₃, if_neg, containsTicks_cons_ne y (z :: r) hy]
    rintro ⟨-, h2, -⟩
    exact hy h2

theorem containsTicks_cons_true (x : Char) (l : List Char)
    (h : containsTicks l = true) : containsTicks (x :: l) = true := by
  match l with
  | [] => simp [containsTicks_nil] at h
  | [y] => simp [containsTicks_one] at h
  | y :: z :: r =>
    rw [containsTicks_cons₃]
    split
    · rfl
    · exact h

theorem containsTicks_tail_false (x : Char) (l : List Char)
    (h : containsTicks (x :: l) = false) : containsTicks l = false := by
  cases hl : containsTicks l
  · rfl
  · rw [containsTicks_cons_true x l hl] at h
    exact absurd h (by simp)

theorem containsTicks_decomp_aux :
    ∀ (n : Nat) (l : List Char), l.length ≤ n → containsTicks l = true →
      ∃ p q, l = p ++ ticks3 ++ q := by
  intro n
  induction n with
  | zero =>
    intro l hl h
    match l with
    | [] => simp [containsTicks_nil] at h
    | a :: r => simp at hl
  | succ n ih =>
    intro l hl h
    match l with
    | [] => simp [containsTicks_nil] at h
    | [a] => simp [containsTicks_one] at h
    | [a, b] => simp [containsTicks_two] at h
    | a :: b :: c :: r =>
      rw [containsTicks_cons₃] at h
      split at h
      · rename_i hg
        obtain ⟨ha, hb, hc⟩ := hg
        subst ha hb hc
        exact ⟨[], r, by simp [ticks3]⟩
      · obtain ⟨p, q, hpq⟩ := ih (b :: c :: r) (by simp at hl ⊢; omega) h
        exact ⟨a :: p, q, by simp [hpq]⟩

theorem containsTicks_eq_true_iff (l : List Char) :
    containsTicks l = true ↔ ∃ p q, l = p ++ ticks3 ++ q := by
  constructor
  · exact containsTicks_decomp_aux l.length l le_rfl
  · rintro ⟨p, q, rfl⟩
    induction p with
    | nil =>
      show containsTicks (btick :: btick :: btick :: q) = true
      rw [containsTicks_cons₃, if_pos ⟨rfl, rfl, rfl⟩]
    | cons x p ih =>
      simp only [List.cons_append]
      exact containsTicks_cons_true x _ (by simpa using ih)

theorem containsTicks_false_mid (u m v : List Char)
    (h : containsTicks (u ++ m ++ v) = false) : containsTicks m = false := by
  cases hm : containsTicks m
  · rfl
  · obtain ⟨p, q, hpq⟩ := (containsTicks_eq_true_iff m).mp hm
    have : containsTicks (u ++ m ++ v) = true := by
      refine (containsTicks_eq_true_iff _).mpr ⟨u ++ p, q ++ v, ?_⟩
      simp [hpq]
    rw [this] at h
    exact absurd h (by simp)

theorem containsTicks_false_suffix (u m : List Char)
    (h : containsTicks (u ++ m) = false) : containsTicks m = false :=
  containsTicks_false_mid u m [] (by simpa using h)

theorem containsTicks_false_pre (m v : List Char)
    (h : containsTicks (m ++ v) = false) : containsTicks m = false :=
  containsTicks_false_mid [] m v (by simpa using h)

theorem containsTicks_append_nb (u l : List Char) (hu : ∀ c ∈ u, c ≠ btick) :
    containsTicks (u ++ l) = containsTicks l := by
  induction u with
  | nil => simp
  | cons x u ih =>
    rw [List.cons_append, containsTicks_cons_ne x _ (hu x (by simp))]
    exact ih fun c hc => hu c (by simp [hc])

theorem removeTicks_nil : removeTicks [] = [] := rfl

theorem removeTicks_one (a : Char) : removeTicks [a] = [a] := rfl

theorem removeTicks_two (a b : Char) : removeTicks [a, b] = [a, b] := rfl

theorem removeTicks_cons₃ (a b c : Char) (r : List Char) :
    removeTicks (a :: b :: c :: r) =
      if a = btick ∧ b = btick ∧ c = btick then removeTicks r
      else a :: removeTicks (b :: c :: r) := rfl

theorem removeTicks_cons_ne (x : Char) (l : List Char) (hx : x ≠ btick) :
    removeTicks (x :: l) = x :: removeTicks l := by
  match l with
  | [] => rfl
  | [y] => rfl
  | y :: z :: r =>
    rw [removeTicks_cons₃, if_neg]
    rintro ⟨h1, -, -⟩
    exact hx h1

theorem removeTicks_cons₂_ne (b c : Char) (r : List Char) (hc : c ≠ btick) :
    removeTicks (b :: c :: r) = b :: c :: removeTicks r := by
  match r with
  | [] => rfl
  | r0 :: r1 =>
    rw [removeTicks_cons₃, if_neg, removeTicks_cons_ne c (r0 :: r1) hc]
    rintro ⟨-, h2, -⟩
    exact hc h2

theorem removeTicks_no_ticks_aux :
    ∀ (n : Nat) (l : List Char), l.length ≤ n →
      containsTicks (removeTicks l) = false := by
  intro n
  induction n with
  | zero =>
    intro l hl
    match l with
    | [] => rfl
    | a :: r => simp at hl
  | succ n ih =>
    intro l hl
    match l with
    | [] => rfl
    | [a] => rfl
    | [a, b] => rfl
    | a :: b :: c :: r =>
      rw [removeTicks_cons₃]
      by_cases hg : a = btick ∧ b = btick ∧ c = btick
      · rw [if_pos hg]
        exact ih r (by simp at hl ⊢; omega)
      · rw [if_neg hg]
        have hRT : containsTicks (removeTicks (b :: c :: r)) = false :=
          ih (b :: c :: r) (by simp at hl ⊢; omega)
        by_cases ha : a = btick
        · by_cases hb : b = btick
          · have hc : c ≠ btick := fun hc => hg ⟨ha, hb, hc⟩
            rw [removeTicks_cons₂_ne b c r hc] at hRT ⊢
            rw [containsTicks_cons₃, if_neg (fun hx => hc hx.2.2)]
            exact hRT
          · rw [removeTicks_cons_ne b (c :: r) hb] at hRT ⊢
            rw [containsTicks_cons₂_ne a b _ hb]
            rw [containsTicks_cons_ne b _ hb] at hRT
            exact hRT
        · rw [containsTicks_cons_ne a _ ha]
          exact hRT

theorem removeTicks_no_ticks (l : List Char) :
    containsTicks (removeTicks l) = false :=
  removeTicks_no_ticks_aux l.length l le_rfl

theorem trimL_decomp (l : List Char) : ∃ u, l = u ++ trimL l :=
  ⟨l.takeWhile isJsWS, (List.takeWhile_append_dropWhile ..).symm⟩

theorem trimR_decomp (l : List Char) : ∃ v, l = trimR l ++ v := by
  refine ⟨(l.reverse.takeWhile isJsWS).reverse, ?_⟩
  have h0 : l.reverse.takeWhile isJsWS ++ l.reverse.dropWhile isJsWS = l.reverse :=
    List.takeWhile_append_dropWhile ..
  have h := congrArg List.reverse h0
  rw [List.reverse_append, List.reverse_reverse] at h
  rw [trimR]
  exact h.symm

theorem trimBoth_no (l : List Char) (h : containsTicks l = false) :
    containsTicks (trimBoth l) = false := by
  obtain ⟨u, hu⟩ := trimL_decomp l
  obtain ⟨v, hv⟩ := trimR_decomp (trimL l)
  rw [hu, hv] at h
  exact containsTicks_false_pre _ _ (containsTicks_false_suffix _ _ h)

theorem replaceGraph_no (l : List Char) (h : containsTicks l = false) :
    containsTicks (replaceGraph l) = false := by
  unfold replaceGraph
  split
  · rw [containsTicks_append_nb flowSp _ (by decide)]
    have hd : l = l.take 6 ++ l.drop 6 := (List.take_append_drop ..).symm
    rw [hd] at h
    exact containsTicks_false_suffix _ _ h
  · exact h

theorem stripHeaderWS_decomp (l : List Char) : ∃ u, l = u ++ stripHeaderWS l := by
  unfold stripHeaderWS
  split
  · obtain ⟨u, hu⟩ := trimL_decomp (l.drop 12)
    simp only [trimL] at hu
    refine ⟨l.take 12 ++ u, ?_⟩
    rw [List.append_assoc, ← hu, List.take_append_drop]
  · exact ⟨[], rfl⟩

theorem stripHeaderWS_no (l : List Char) (h : containsTicks l = false) :
    containsTicks (stripHeaderWS l) = false := by
  obtain ⟨u, hu⟩ := stripHeaderWS_decomp l
  rw [hu] at h
  exact containsTicks_false_suffix _ _ h

theorem ensureHeader_no (l : List Char) (h : containsTicks l = false) :
    containsTicks (ensureHeader l) = false := by
  unfold ensureHeader
  split
  · exact h
  · rw [containsTicks_append_nb headerNL _ (by decide)]
    exact stripHeaderWS_no l h

theorem newlineGuard_header_nil : newlineGuard (header12 ++ []) = header12 ++ [] := by
  decide

theorem newlineGuard_header_cons (c : Char) (rest : List Char) (hc : ¬ c = '\n') :
    newlineGuard (header12 ++ c :: rest) = header12 ++ '\n' :: c :: rest := by
  unfold newlineGuard
  rw [if_pos (startsWithL_self_append header12 _), drop12_header]
  simp [hc]

theorem newlineGuard_not_header (l : List Char)
    (hs : ¬ startsWithL header12 l = true) : newlineGuard l = l := by
  unfold newlineGuard
  rw [if_neg hs]

theorem newlineGuard_no (l : List Char) (h : containsTicks l = false) :
    containsTicks (newlineGuard l) = false := by
  by_cases hs : startsWithL header12 l = true
  · obtain ⟨t, rfl⟩ := (startsWithL_iff header12 l).mp hs
    match t with
    | [] => rw [newlineGuard_header_nil]; exact h
    | c :: rest =>
      by_cases hc : c = '\n'
      · subst hc
        rw [← headerNL_append, newlineGuard_headerNL, headerNL_append]
        exact h
      · rw [newlineGuard_header_cons c rest hc, ← headerNL_append,
          containsTicks_append_nb headerNL _ (by decide)]
        exact containsTicks_false_suffix header12 _ h
  · rw [newlineGuard_not_header l hs]
    exact h

theorem sanitizeL_no_ticks (l : List Char) :
    containsTicks (sanitizeL l) = false := by
  unfold sanitizeL
  exact newlineGuard_no _ (ensureHeader_no _ (trimBoth_no _ (replaceGraph_no _
    (removeTicks_no_ticks _))))

/-- C2: for every input containing fenced code-block markers, the sanitizer's
output contains no fenced code-block marker at all (no occurrence of three
consecutive backticks survives, hence neither a tagged opening marker nor a
closing marker). -/
theorem sanitizer_removes_fence_markers (s : String)
    (h : containsTicks s.toList = true) :
    containsTicks (sanitize s).toList = false := by
  rw [sanitize_toList]
  exact sanitizeL_no_ticks s.toList

/-- Witness for C2 at a concrete fenced input. -/
theorem sanitizer_removes_fence_markers_witness :
    containsTicks ("```mermaid\ngraph TD\nA-->B\n```").toList = true ∧
      containsTicks (sanitize "```mermaid\ngraph TD\nA-->B\n```").toList = false :=
  ⟨by decide, sanitizer_removes_fence_markers "```mermaid\ngraph TD\nA-->B\n```" (by decide)⟩

theorem trimBoth_of_all_ws (l : List Char) (h : ∀ c ∈ l, isJsWS c = true) :
    trimBoth l = [] := by
  have h1 : trimL l = [] := by
    simp [trimL, List.dropWhile_eq_nil_iff]
    exact fun c hc => h c hc
  rw [trimBoth, h1]
  rfl

/-- C10: for every completion text that is empty or whitespace-only, the
sanitizer's output is exactly the canonical header line "flowchart TD\n"
with nothing after it. -/
theorem sanitizer_on_whitespace_input (s : String)
    (h : ∀ c ∈ s.toList, isJsWS c = true) :
    sanitize s = "flowchart TD\n" := by
  have h1 : trimBoth s.toList = [] := trimBoth_of_all_ws _ h
  show (sanitizeL s.toList).asString = _
  unfold sanitizeL
  rw [h1]
  decide

/-- Witness for C10 at a concrete whitespace-only input. -/
theorem sanitizer_on_whitespace_input_witness :
    (∀ c ∈ (" \n\t ").toList, isJsWS c = true) ∧ sanitize " \n\t " = "flowchart TD\n" :=
  ⟨by decide, sanitizer_on_whitespace_input " \n\t " (by decide)⟩

theorem dropWhileWS_cons (x : Char) (xs : List Char) :
    List.dropWhile isJsWS (x :: xs) =
      if isJsWS x then List.dropWhile isJsWS xs else x :: xs := by
  cases h : isJsWS x <;> simp [List.dropWhile, h]

theorem dropWhileWS_idem (l : List Char) :
    List.dropWhile isJsWS (List.dropWhile isJsWS l) = List.dropWhile isJsWS l := by
  induction l with
  | nil => rfl
  | cons x xs ih =>
    rw [dropWhileWS_cons]
    cases h : isJsWS x
    · rw [if_neg (by simp [h]), dropWhileWS_cons, if_neg (by simp [h])]
    · rw [if_pos (by simp [h])]
      exact ih

theorem dropWhileWS_length_le (l : List Char) :
    (List.dropWhile isJsWS l).length ≤ l.length := by
  induction l with
  | nil => simp
  | cons x xs ih =>
    rw [dropWhileWS_cons]
    split
    · exact Nat.le_trans ih (by simp)
    · simp

theorem trimL_fix_head (l : List Char) (h : trimL l = l) :
    ∀ x xs, l = x :: xs → isJsWS x = false := by
  intro x xs he
  subst he
  cases hx : isJsWS x
  · rfl
  · exfalso
    rw [trimL, dropWhileWS_cons, if_pos (by simp [hx])] at h
    have hlen := dropWhileWS_length_le xs
    rw [h] at hlen
    simp at hlen

theorem trimL_fix_of_head (x : Char) (xs : List Char) (hx : isJsWS x = false) :
    trimL (x :: xs) = x :: xs := by
  rw [trimL, dropWhileWS_cons, if_neg (by simp [hx])]

theorem trimR_eq_self_iff (l : List Char) :
    trimR l = l ↔ trimL l.reverse = l.reverse := by
  rw [trimR, trimL]
  constructor
  · intro h
    have := congrArg List.reverse h
    simpa [List.reverse_reverse] using this
  · intro h
    rw [h, List.reverse_reverse]

theorem trimR_idem (l : List Char) : trimR (trimR l) = trimR l := by
  rw [trimR, trimR, List.reverse_reverse, dropWhileWS_idem]

theorem trimBoth_trimR (l : List Char) : trimR (trimBoth l) = trimBoth l := by
  rw [trimBoth, trimR_idem]

theorem trimR_append_right (v w : List Char) (hw : w ≠ []) (hfix : trimR w = w) :
    trimR (v ++ w) = v ++ w := by
  rw [trimR_eq_self_iff] at hfix ⊢
  rw [List.reverse_append]
  obtain ⟨x, xs, hx⟩ : ∃ x xs, w.reverse = x :: xs := by
    cases hwr : w.reverse with
    | nil => exact absurd (List.reverse_eq_nil_iff.mp hwr) hw
    | cons x xs => exact ⟨x, xs, rfl⟩
  have hxw : isJsWS x = false := trimL_fix_head _ hfix x xs hx
  rw [hx, List.cons_append]
  exact trimL_fix_of_head x _ hxw

theorem trimR_suffix_fix (u w z : List Char) (hz : z = u ++ w)
    (hfix : trimR z = z) : trimR w = w := by
  cases hww : w with
  | nil => rfl
  | cons y ys =>
    rw [trimR_eq_self_iff] at hfix ⊢
    subst hz hww
    obtain ⟨x, xs, hx⟩ : ∃ x xs, (y :: ys).reverse = x :: xs := by
      cases hwr : (y :: ys).reverse with
      | nil => exact absurd (List.reverse_eq_nil_iff.mp hwr) (by simp)
      | cons x xs => exact ⟨x, xs, rfl⟩
    have hs : (u ++ y :: ys).reverse = x :: (xs ++ u.reverse) := by
      rw [List.reverse_append, hx, List.cons_append]
    have hxw : isJsWS x = false := trimL_fix_head _ hfix x _ hs
    rw [hx]
    exact trimL_fix_of_head x _ hxw

theorem trimL_header (b : List Char) : trimL (headerNL ++ b) = headerNL ++ b := by
  rw [headerNL_append]
  exact trimL_fix_of_head 'f' _ (by decide)

theorem graphAt_header (b : List Char) : graphAt (headerNL ++ b) = false := rfl

theorem replaceGraph_header (b : List Char) :
    replaceGraph (headerNL ++ b) = headerNL ++ b := by
  rw [replaceGraph, graphAt_header]
  simp

theorem removeTicks_id_aux :
    ∀ (n : Nat) (l : List Char), l.length ≤ n → containsTicks l = false →
      removeTicks l = l := by
  intro n
  induction n with
  | zero =>
    intro l hl hc
    match l with
    | [] => rfl
    | a :: r => simp at hl
  | succ n ih =>
    intro l hl hc
    match l with
    | [] => rfl
    | [a] => rfl
    | [a, b] => rfl
    | a :: b :: c :: r =>
      rw [removeTicks_cons₃]
      by_cases hg : a = btick ∧ b = btick ∧ c = btick
      · exfalso
        rw [containsTicks_cons₃, if_pos hg] at hc
        exact absurd hc (by simp)
      · rw [if_neg hg]
        rw [ih (b :: c :: r) (by simp at hl ⊢; omega) (containsTicks_tail_false a _ hc)]

theorem removeTicks_id_of_no (l : List Char) (h : containsTicks l = false) :
    removeTicks l = l :=
  removeTicks_id_aux l.length l le_rfl h

theorem removeMermaidFence_cons_ne (a b c d e f g h i j : Char) (r : List Char)
    (hg : ¬ [a, b, c, d, e, f, g, h, i, j] = fenceTag) :
    removeMermaidFence (a :: b :: c :: d :: e :: f :: g :: h :: i :: j :: r) =
      a :: removeMermaidFence (b :: c :: d :: e :: f :: g :: h :: i :: j :: r) := by
  match r with
  | [] => rw [removeMermaidFence.eq_2, if_neg hg]
  | k :: r2 => rw [removeMermaidFence.eq_1, if_neg hg]

theorem removeMermaidFence_id_aux :
    ∀ (n : Nat) (l : List Char), l.length ≤ n → containsTicks l = false →
      removeMermaidFence l = l := by
  intro n
  induction n with
  | zero =>
    intro l hl hc
    match l with
    | [] => rfl
    | a :: r => simp at hl
  | succ n ih =>
    intro l hl hc
    match l with
    | [] => rfl
    | [a] => rfl
    | [a, b] => rfl
    | [a, b, c] => rfl
    | [a, b, c, d] => rfl
    | [a, b, c, d, e] => rfl
    | [a, b, c, d, e, f] => rfl
    | [a, b, c, d, e, f, g] => rfl
    | [a, b, c, d, e, f, g, h] => rfl
    | [a, b, c, d, e, f, g, h, i] => rfl
    | a :: b :: c :: d :: e :: f :: g :: h :: i :: j :: r =>
      by_cases hg : [a, b, c, d, e, f, g, h, i, j] = fenceTag
      · exfalso
        have hrest : a = btick ∧ b = btick ∧ c = btick := by
          have := hg
          simp [fenceTag, ticks3] at this
          exact ⟨this.1, this.2.1, this.2.2.1⟩
        rw [containsTicks_cons₃, if_pos hrest] at hc
        exact absurd hc (by simp)
      · rw [removeMermaidFence_cons_ne a b c d e f g h i j r hg]
        rw [ih (b :: c :: d :: e :: f :: g :: h :: i :: j :: r)
          (by simp at hl ⊢; omega) (containsTicks_tail_false a _ hc)]

theorem removeMermaidFence_id_of_no (l : List Char) (h : containsTicks l = false) :
    removeMermaidFence l = l :=
  removeMermaidFence_id_aux l.length l le_rfl h

theorem sanitizeL_trimR (l : List Char) :
    trimR (sanitizeL l) = sanitizeL l ∨ sanitizeL l = headerNL := by
  unfold sanitizeL
  generalize hzdef : trimBoth (replaceGraph (removeTicks (removeMermaidFence (trimBoth l)))) = z
  have hzR : trimR z = z := by rw [← hzdef]; exact trimBoth_trimR _
  by_cases hs : startsWithL headerNL z = true
  · left
    obtain ⟨t, rfl⟩ := (startsWithL_iff headerNL z).mp hs
    rw [ensureHeader, if_pos (startsWithL_self_append ..), newlineGuard_headerNL]
    exact hzR
  · rw [ensureHeader, if_neg hs, newlineGuard_headerNL]
    cases hw : stripHeaderWS z with
    | nil => right; simp
    | cons x xs =>
      left
      obtain ⟨u, hu⟩ := stripHeaderWS_decomp z
      have hfix : trimR (stripHeaderWS z) = stripHeaderWS z :=
        trimR_suffix_fix u _ z hu hzR
      rw [hw] at hfix
      exact trimR_append_right headerNL (x :: xs) (by simp) hfix

theorem sanitizeL_idem (l : List Char) : sanitizeL (sanitizeL l) = sanitizeL l := by
  obtain ⟨b, hy⟩ := sanitizeL_starts l
  rcases sanitizeL_trimR l with hR | hHead
  case inr =>
    rw [hHead]
    decide
  case inl =>
    have hnt : containsTicks (sanitizeL l) = false := sanitizeL_no_ticks l
    have h1 : trimBoth (sanitizeL l) = sanitizeL l := by
      rw [trimBoth, hy, trimL_header, ← hy, hR]
    have h2 : removeMermaidFence (sanitizeL l) = sanitizeL l :=
      removeMermaidFence_id_of_no _ hnt
    have h3 : removeTicks (sanitizeL l) = sanitizeL l :=
      removeTicks_id_of_no _ hnt
    have h4 : replaceGraph (sanitizeL l) = sanitizeL l := by
      rw [hy]; exact replaceGraph_header b
    have h5 : ensureHeader (sanitizeL l) = sanitizeL l := by
      rw [ensureHeader, if_pos (by rw [hy]; exact startsWithL_self_append ..)]
    have h6 : newlineGuard (sanitizeL l) = sanitizeL l := by
      rw [hy]; exact newlineGuard_headerNL b
    conv_lhs => rw [sanitizeL, h1, h2, h3, h4, h1, h5, h6]

/-- A string is in canonical form when it is a possible sanitizer output. -/
def CanonicalForm (s : String) : Prop := ∃ t : String, sanitize t = s

/-- C6: the sanitizer is idempotent on canonical inputs: applying it twice to
a string already in canonical form yields the same result as applying it
once. -/
theorem sanitizer_idempotent_on_canonical (s : String) (h : CanonicalForm s) :
    sanitize (sanitize s) = sanitize s := by
  show (sanitizeL (sanitize s).toList).asString = _
  rw [sanitize_toList, sanitizeL_idem]
  rfl

/-- Witness for C6 at a concrete canonical string. -/
theorem sanitizer_idempotent_on_canonical_witness :
    CanonicalForm "flowchart TD\nA[Start] --> B[End]" ∧
      sanitize (sanitize "flowchart TD\nA[Start] --> B[End]") =
        sanitize "flowchart TD\nA[Start] --> B[End]" :=
  ⟨⟨"flowchart TD\nA[Start] --> B[End]", by decide⟩,
    sanitizer_idempotent_on_canonical "flowchart TD\nA[Start] --> B[End]"
      ⟨"flowchart TD\nA[Start] --> B[End]", by decide⟩⟩

inductive Role
  | system
  | user
  | assistant
deriving DecidableEq

/-- A role-tagged conversation message. -/
structure Message where
  role : Role
  content : String
deriving DecidableEq

/-- The system prompt seeded at startup (lines 17-22 of FlowchartApp.tsx). -/
def systemPromptText : String :=
  "You are a Mermaid.js flowchart generator. Generate only valid Mermaid.js flowchart code. Always start with \x27flowchart TD\x27. Use proper syntax: nodes with square brackets [Node text], arrows with -->, and no extra text or formatting. If this is a follow-up request, modify the existing flowchart based on the user\x27s request. Example format:\nflowchart TD\nA[Start] --> B[Process]\nB --> C[End]"

/-- The React state cells of the component. -/
structure AppState where
  prompt : String
  mermaidCode : String
  loading : Bool
  error : Option String
  scale : ℚ
  messages : List Message
deriving DecidableEq

/-- The component state right after mounting. -/
def initState : AppState :=
  { prompt := "", mermaidCode := "", loading := false, error := none, scale := 1,
    messages := [{ role := Role.system, content := systemPromptText }] }

/-- The synthetic assistant message carrying the current diagram source,
annotated as a modify-this instruction (lines 84-90 of FlowchartApp.tsx). -/
def syntheticAssistant (code : String) : Message :=
  { role := Role.assistant,
    content := "Current flowchart code:\n" ++ code ++
      "\nPlease modify this based on the user\x27s request." }

/-- The outbound message sequence built by handleGenerate (lines 79-90):
the stored history, the new user message, and, when a diagram already
exists, the synthetic assistant message. -/
def requestMessages (st : AppState) : List Message :=
  let base := st.messages ++ [{ role := Role.user, content := st.prompt }]
  if st.mermaidCode ≠ "" then base ++ [syntheticAssistant st.mermaidCode] else base

/-- Outcome of the completion call: the returned text, or a transport or
HTTP failure message. -/
inductive CompletionResult
  | ok (content : String)
  | fail (message : String)

/-- The generation handler (lines 72-144 of FlowchartApp.tsx), modeled as
the final values of the state cells once the handler has completed: guard on
a blank prompt, then on success store the sanitized code, the cleared
prompt, and the extended conversation; on failure record only the error. -/
def handleGenerate (st : AppState) (resp : CompletionResult) : AppState :=
  if trimBoth st.prompt.toList = [] then st
  else
    match resp with
    | CompletionResult.fail msg => { st with loading := false, error := some msg }
    | CompletionResult.ok content =>
      let code := sanitize content
      { st with
        messages := requestMessages st ++ [{ role := Role.assistant, content := code }],
        mermaidCode := code,
        prompt := "",
        loading := false,
        error := none }

/-- The submit trigger is enabled only when no request is loading and the
prompt is not blank (line 211 of FlowchartApp.tsx). -/
def canSubmit (st : AppState) : Bool :=
  !(st.loading || decide (trimBoth st.prompt.toList = []))

/-- A click on the submit trigger: when the trigger is disabled nothing
happens and no request is sent; otherwise handleGenerate runs with the
completion outcome. The boolean records whether a request was sent. -/
def submit (st : AppState) (resp : CompletionResult) : AppState × Bool :=
  if canSubmit st then (handleGenerate st resp, true) else (st, false)

/-- The zoom clamp (lines 146-148 of FlowchartApp.tsx): the new scale is
the previous scale plus the delta, clamped between one tenth and two. -/
def handleZoom (delta scale : ℚ) : ℚ := max (1/10) (min 2 (scale + delta))

/-- One user-visible operation on the component. -/
inductive Action
  | generate (resp : CompletionResult)
  | zoom (delta : ℚ)
  | editPrompt (s : String)

/-- Apply one operation to the state. -/
def step (st : AppState) : Action → AppState
  | Action.generate resp => (submit st resp).1
  | Action.zoom d => { st with scale := handleZoom d st.scale }
  | Action.editPrompt s => { st with prompt := s }

/-- A session: a sequence of operations from a starting state. -/
def run (st : AppState) (acts : List Action) : AppState := acts.foldl step st

theorem canSubmit_parts (st : AppState) (h : canSubmit st = true) :
    st.loading = false ∧ ¬ trimBoth st.prompt.data = [] := by
  simp [canSubmit] at h
  exact h

/-- C9: submission is rejected with no state transition whenever the prompt
is empty or whitespace-only or a request is already in flight: the whole
state (conversation, diagram source, status, error text) is unchanged and
no request is sent. -/
theorem submission_rejected_noop (st : AppState) (resp : CompletionResult)
    (h : trimBoth st.prompt.toList = [] ∨ st.loading = true) :
    submit st resp = (st, false) := by
  have hc : canSubmit st = false := by
    rcases h with h | h
    · have h' : trimBoth st.prompt.data = [] := h
      simp [canSubmit, h']
    · simp [canSubmit, h]
  simp [submit, hc]

/-- A reachable state whose prompt is whitespace-only. -/
def stBlank : AppState := { initState with prompt := " \t " }

/-- Witness for C9 at a concrete whitespace-only prompt. -/
theorem submission_rejected_noop_witness :
    (trimBoth stBlank.prompt.toList = [] ∨ stBlank.loading = true) ∧
      submit stBlank (CompletionResult.ok "flowchart TD\nA") = (stBlank, false) :=
  ⟨Or.inl (by decide),
    submission_rejected_noop stBlank (CompletionResult.ok "flowchart TD\nA")
      (Or.inl (by decide))⟩

/-- C4: a failing completion call leaves the stored conversation and the
diagram source exactly as they were before the call, returns the request
status to idle, and sets an error message. -/
theorem generation_failure_atomic (st : AppState) (msg : String)
    (h : canSubmit st = true) :
    ((submit st (CompletionResult.fail msg)).1).messages = st.messages ∧
      ((submit st (CompletionResult.fail msg)).1).mermaidCode = st.mermaidCode ∧
      ((submit st (CompletionResult.fail msg)).1).loading = false ∧
      ((submit st (CompletionResult.fail msg)).1).error = some msg := by
  obtain ⟨-, hp⟩ := canSubmit_parts st h
  simp [submit, h, handleGenerate, hp]

/-- A reachable state with a non-blank prompt and no diagram yet. -/
def stDraw : AppState := { initState with prompt := "draw a diagram" }

/-- Witness for C4 at a concrete state and failure. -/
theorem generation_failure_atomic_witness :
    canSubmit stDraw = true ∧
      (((submit stDraw (CompletionResult.fail "API error: Unauthorized")).1).messages =
          stDraw.messages ∧
        ((submit stDraw (CompletionResult.fail "API error: Unauthorized")).1).mermaidCode =
          stDraw.mermaidCode ∧
        ((submit stDraw (CompletionResult.fail "API error: Unauthorized")).1).loading = false ∧
        ((submit stDraw (CompletionResult.fail "API error: Unauthorized")).1).error =
          some "API error: Unauthorized") :=
  ⟨by decide, generation_failure_atomic stDraw "API error: Unauthorized" (by decide)⟩

/-- C5: the outbound request's message sequence equals the stored history
extended with the new user message, followed, exactly when a diagram already
exists, by one synthetic assistant message containing the current diagram
source annotated as a modify-this instruction; when the diagram source is
empty no synthetic message is added. -/
theorem request_message_construction (st : AppState) :
    (st.mermaidCode ≠ "" →
      requestMessages st = st.messages ++
        [{ role := Role.user, content := st.prompt },
         { role := Role.assistant,
           content := "Current flowchart code:\n" ++ st.mermaidCode ++
             "\nPlease modify this based on the user\x27s request." }]) ∧
    (st.mermaidCode = "" →
      requestMessages st = st.messages ++ [{ role := Role.user, content := st.prompt }]) := by
  constructor
  · intro h
    simp [requestMessages, syntheticAssistant, h]
  · intro h
    simp [requestMessages, h]

/-- A reachable state with an existing diagram and a fresh prompt. -/
def stMod : AppState :=
  { initState with prompt := "add a node", mermaidCode := "flowchart TD\nA[Start]" }

/-- Witness for C5 at a concrete state with an existing diagram. -/
theorem request_message_construction_witness :
    stMod.mermaidCode ≠ "" ∧
      requestMessages stMod = stMod.messages ++
        [{ role := Role.user, content := stMod.prompt },
         { role := Role.assistant,
           content := "Current flowchart code:\n" ++ stMod.mermaidCode ++
             "\nPlease modify this based on the user\x27s request." }] :=
  ⟨by decide, (request_message_construction stMod).1 (by decide)⟩

/-- A state reached after one successful generation, with a fresh prompt. -/
def stAfterOne : AppState :=
  { (submit { initState with prompt := "draw a start node" }
      (CompletionResult.ok "flowchart TD\nA[Start]")).1 with prompt := "add an end node" }

/-- C3 counterexample: from a reachable state with an existing diagram, a
successful generation cycle grows the stored message sequence by three
messages, not two. -/
theorem generation_growth_counterexample :
    ¬ (((submit stAfterOne
          (CompletionResult.ok "flowchart TD\nA[Start] --> B[End]")).1).messages.length =
        stAfterOne.messages.length + 2) := by decide

/-- C3 amended: a successful generation cycle stores the new user message
and the assistant response, plus the synthetic assistant context message
exactly when a diagram already existed, so the stored sequence grows by
exactly two messages when the diagram source was empty and by exactly three
otherwise. -/
theorem generation_growth (st : AppState) (content : String)
    (h : canSubmit st = true) :
    ((submit st (CompletionResult.ok content)).1).messages =
      st.messages ++ [{ role := Role.user, content := st.prompt }] ++
        (if st.mermaidCode = "" then [] else [syntheticAssistant st.mermaidCode]) ++
        [{ role := Role.assistant, content := sanitize content }] ∧
    (st.mermaidCode = "" →
      ((submit st (CompletionResult.ok content)).1).messages.length =
        st.messages.length + 2) ∧
    (st.mermaidCode ≠ "" →
      ((submit st (CompletionResult.ok content)).1).messages.length =
        st.messages.length + 3) := by
  obtain ⟨-, hp⟩ := canSubmit_parts st h
  refine ⟨?_, ?_, ?_⟩
  · by_cases hm : st.mermaidCode = "" <;>
      simp [submit, h, handleGenerate, hp, requestMessages, hm]
  · intro hm
    simp [submit, h, handleGenerate, hp, requestMessages, hm]
  · intro hm
    simp [submit, h, handleGenerate, hp, requestMessages, hm]

/-- Witness for the amended C3 at a concrete first generation. -/
theorem generation_growth_witness :
    canSubmit stDraw = true ∧
      ((submit stDraw (CompletionResult.ok "flowchart TD\nA")).1).messages.length =
        stDraw.messages.length + 2 :=
  ⟨by decide, (generation_growth stDraw "flowchart TD\nA" (by decide)).2.1 (by decide)⟩

/-- C7: starting from the initial scale of one, after every finite sequence
of zoom-in and zoom-out actions of one tenth, the view scale stays between
one tenth and two. -/
theorem view_scale_bounded (ds : List ℚ)
    (h : ∀ d ∈ ds, d = 1/10 ∨ d = -(1/10)) :
    1/10 ≤ ds.foldl (fun s d => handleZoom d s) 1 ∧
      ds.foldl (fun s d => handleZoom d s) 1 ≤ 2 := by
  have key : ∀ (es : List ℚ) (s : ℚ), 1/10 ≤ s → s ≤ 2 →
      1/10 ≤ es.foldl (fun s d => handleZoom d s) s ∧
        es.foldl (fun s d => handleZoom d s) s ≤ 2 := by
    intro es
    induction es with
    | nil => intro s h1 h2; exact ⟨h1, h2⟩
    | cons d es ih =>
      intro s h1 h2
      simp only [List.foldl_cons]
      exact ih (handleZoom d s) (le_max_left _ _)
        (max_le (by norm_num) (min_le_left _ _))
  exact key ds 1 (by norm_num) (by norm_num)

/-- Witness for C7 at a concrete zoom sequence. -/
theorem view_scale_bounded_witness :
    (∀ d ∈ [(1 : ℚ)/10, 1/10, -(1/10)], d = 1/10 ∨ d = -(1/10)) ∧
      (1/10 ≤ [(1 : ℚ)/10, 1/10, -(1/10)].foldl (fun s d => handleZoom d s) 1 ∧
        [(1 : ℚ)/10, 1/10, -(1/10)].foldl (fun s d => handleZoom d s) 1 ≤ 2) :=
  ⟨by simp, view_scale_bounded [(1 : ℚ)/10, 1/10, -(1/10)] (by simp)⟩

/-- C8: the conversation is append-only and order-preserving: every
operation extends the stored message sequence on the right, leaving the
prior sequence an unchanged prefix, and along every session from the
initial state the seeded system message stays first and is never removed. -/
theorem conversation_append_only :
    (∀ (st : AppState) (a : Action), ∃ t, (step st a).messages = st.messages ++ t) ∧
    (∀ acts : List Action, (run initState acts).messages.head? =
      some { role := Role.system, content := systemPromptText }) := by
  have hstep : ∀ (st : AppState) (a : Action),
      ∃ t, (step st a).messages = st.messages ++ t := by
    intro st a
    cases a with
    | zoom d => exact ⟨[], by simp [step]⟩
    | editPrompt s => exact ⟨[], by simp [step]⟩
    | generate resp =>
      by_cases hc : canSubmit st = true
      · by_cases hp : trimBoth st.prompt.data = []
        · exact ⟨[], by simp [step, submit, hc, handleGenerate, hp]⟩
        · cases resp with
          | fail msg => exact ⟨[], by simp [step, submit, hc, handleGenerate, hp]⟩
          | ok content =>
            refine ⟨[{ role := Role.user, content := st.prompt }] ++
              (if st.mermaidCode = "" then [] else [syntheticAssistant st.mermaidCode]) ++
              [{ role := Role.assistant, content := sanitize content }], ?_⟩
            by_cases hm : st.mermaidCode = "" <;>
              simp [step, submit, hc, handleGenerate, hp, requestMessages, hm]
      · exact ⟨[], by simp [step, submit, hc]⟩
  refine ⟨hstep, ?_⟩
  have key : ∀ (acts : List Action) (st : AppState),
      st.messages.head? = some { role := Role.system, content := systemPromptText } →
      (run st acts).messages.head? =
        some { role := Role.system, content := systemPromptText } := by
    intro acts
    induction acts with
    | nil => intro st h; exact h
    | cons a acts ih =>
      intro st h
      show (run (step st a) acts).messages.head? = _
      apply ih
      obtain ⟨t, ht⟩ := hstep st a
      rw [ht]
      cases hm : st.messages with
      | nil => rw [hm] at h; simp at h
      | cons m ms =>
        rw [hm] at h
        simpa using h
  exact fun acts => key acts initState rfl

end FlowchartApp
